import Mathlib

/-!
Verification of the target property resolution engine, version comparator and
build-configuration selector of the `cmake-package` crate.

The definitions below are a shallow embedding of `src/version.rs` and
`src/cmake.rs`:
 * machine integers (`u32`) become `Nat`, with explicit `< 2^32` bounds where
   Rust's parsing checks overflow;
 * `Option<T>` / `Result<T, E>` become `Option` / `Except`;
 * Rust's `str::split('.')`, `u32::from_str` and `u32` decimal rendering are
   embedded as executable functions on `List Char` with the same semantics;
 * the platform switch `cfg!(target_os = "windows")` becomes an explicit
   `windows : Bool` parameter;
 * the ambient environment (`PROFILE`, `OPT_LEVEL`, `DEBUG`) becomes three
   `Option String` parameters.

Definitions named after source items follow the source; definitions whose name
starts with `spec` (or `claim`) restate a sentence of the specification and are
compared with the source-derived definitions in the theorems.
-/

/-! ## Embedding of Rust string primitives used by `version.rs` -/

/-- Embedding of Rust `str::split('.')` (on the character level): splitting an
empty string yields `[[]]`, separators at the ends yield empty fragments. -/
def splitOnDot : List Char → List (List Char)
  | [] => [[]]
  | c :: rest =>
    if c = '.' then [] :: splitOnDot rest
    else
      match splitOnDot rest with
      | [] => [[c]]
      | l :: ls => (c :: l) :: ls

/-- Value of a decimal digit character, `none` for non-digits
(embedding of `char::to_digit(10)` as used by `u32::from_str`). -/
def charDigit? (c : Char) : Option Nat :=
  if '0' ≤ c ∧ c ≤ '9' then some (c.toNat - '0'.toNat) else none

/-- Accumulating decimal parser over a list of characters; fails on the first
non-digit character. -/
def parseDigitsAux : Nat → List Char → Option Nat
  | acc, [] => some acc
  | acc, c :: cs =>
    match charDigit? c with
    | some d => parseDigitsAux (acc * 10 + d) cs
    | none => none

/-- Embedding of Rust `u32::from_str`: an optional leading `'+'`, then one or
more decimal digits, and the value must fit into 32 bits. -/
def parseU32Chars (cs : List Char) : Option Nat :=
  let body : List Char :=
    match cs with
    | c :: rest => if c = '+' then rest else cs
    | [] => cs
  if body.isEmpty then none
  else
    match parseDigitsAux 0 body with
    | some v => if v < 4294967296 then some v else none
    | none => none

/-- Fuel-driven decimal rendering of a natural number, most significant digit
first; with fuel above the value it is Rust's `u32` `Display`. -/
def natDigitsFuel : Nat → Nat → List Char
  | 0, _ => []
  | fuel + 1, n =>
    if n < 10 then [Nat.digitChar n]
    else natDigitsFuel fuel (n / 10) ++ [Nat.digitChar (n % 10)]

/-- Decimal rendering of a natural number (embedding of Rust's integer
`Display`, as used by `format!` in `version.rs`). -/
def natToDigits (n : Nat) : List Char := natDigitsFuel (n + 1) n

/-! ## `src/version.rs` -/

/-- Embedding of `struct Version { major, minor, patch: u32 }`; the `u32`
fields become `Nat`, with explicit bounds where overflow matters. -/
structure Version where
  major : Nat
  minor : Nat
  patch : Nat
deriving DecidableEq

/-- Embedding of `enum VersionError`. -/
inductive VersionError where
  | invalidVersion
  | versionTooOld (v : Version)
deriving DecidableEq

/-- Embedding of `Version::parse`: split on `'.'`, reject zero or more than
three components, parse each component as `u32`, missing trailing components
default to zero. -/
def Version.parse (s : String) : Except VersionError Version :=
  match splitOnDot s.data with
  | [a] =>
    match parseU32Chars a with
    | some major => .ok ⟨major, 0, 0⟩
    | none => .error .invalidVersion
  | [a, b] =>
    match parseU32Chars a, parseU32Chars b with
    | some major, some minor => .ok ⟨major, minor, 0⟩
    | _, _ => .error .invalidVersion
  | [a, b, c] =>
    match parseU32Chars a, parseU32Chars b, parseU32Chars c with
    | some major, some minor, some patch => .ok ⟨major, minor, patch⟩
    | _, _, _ => .error .invalidVersion
  | _ => .error .invalidVersion

/-- Embedding of `From<Version> for String` / `Display for Version`:
`format!("{}.{}.{}", major, minor, patch)`. -/
def Version.render (v : Version) : String :=
  ⟨natToDigits v.major ++ '.' :: (natToDigits v.minor ++ '.' :: natToDigits v.patch)⟩

/-- Embedding of the derived `PartialEq for Version`: all three fields equal. -/
def Version.beq (a b : Version) : Bool :=
  a.major == b.major && a.minor == b.minor && a.patch == b.patch

/-- Embedding of the hand-written `PartialOrd::lt for Version`
(lexicographic). -/
def Version.lt (a b : Version) : Bool :=
  decide (a.major < b.major)
    || (a.major == b.major && decide (a.minor < b.minor))
    || (a.major == b.major && a.minor == b.minor && decide (a.patch < b.patch))

/-- Embedding of the hand-written `PartialOrd::gt for Version`
(lexicographic). -/
def Version.gt (a b : Version) : Bool :=
  decide (b.major < a.major)
    || (a.major == b.major && decide (b.minor < a.minor))
    || (a.major == b.major && a.minor == b.minor && decide (b.patch < a.patch))

/-- Embedding of the hand-written `PartialOrd::le for Version`: note that the
source compares component-wise (`major <= && minor <= && patch <=`), not
lexicographically. -/
def Version.le (a b : Version) : Bool :=
  decide (a.major ≤ b.major) && decide (a.minor ≤ b.minor) && decide (a.patch ≤ b.patch)

/-- Embedding of the hand-written `PartialOrd::ge for Version`: note that the
source compares component-wise, not lexicographically. -/
def Version.ge (a b : Version) : Bool :=
  decide (b.major ≤ a.major) && decide (b.minor ≤ a.minor) && decide (b.patch ≤ a.patch)

/-- Embedding of `PartialOrd::partial_cmp for Version`. -/
def Version.compare (a b : Version) : Option Ordering :=
  if Version.beq a b then some .eq
  else if Version.lt a b then some .lt
  else some .gt

/-! ## `src/cmake.rs`: build-configuration selector -/

/-- Embedding of `enum CMakeBuildType`. -/
inductive CMakeBuildType where
  | Debug
  | Release
  | RelWithDebInfo
  | MinSizeRel
deriving DecidableEq

/-- Check that `needle` occurs at the start of `hay`. -/
def startsWithChars : List Char → List Char → Bool
  | [], _ => true
  | _ :: _, [] => false
  | a :: as, b :: bs => a == b && startsWithChars as bs

/-- Embedding of Rust `str::contains` with a string pattern: `needle` occurs as
a contiguous substring of `hay`. -/
def containsSub (hay needle : List Char) : Bool :=
  match hay with
  | [] => needle.isEmpty
  | _ :: rest => startsWithChars needle hay || containsSub rest needle

/-- Embedding of `build_type()`: the ambient environment variables `PROFILE`,
`OPT_LEVEL` and `DEBUG` become the three `Option String` parameters, an absent
variable being `none`.  The test `"sz".contains(&opt_level)` is a substring
test, embedded by `containsSub`. -/
def build_type (profile opt_level dbg : Option String) : CMakeBuildType :=
  if profile.getD "debug" = "release" then
    if containsSub "sz".data (opt_level.getD "0").data then
      .MinSizeRel
    else if ¬ ((dbg.getD "0") ∈ (["0", "false", "none"] : List String)) then
      .RelWithDebInfo
    else
      .Release
  else
    .Debug

/-! ## `src/cmake.rs`: the target graph model -/

/-- Embedding of the non-recursive fields of `struct Target`. -/
structure TargetBase where
  name : String
  location : Option String
  location_release : Option String
  location_debug : Option String
  location_relwithdebinfo : Option String
  location_minsizerel : Option String
  imported_implib : Option String
  imported_implib_release : Option String
  imported_implib_debug : Option String
  imported_implib_relwithdebinfo : Option String
  imported_implib_minsizerel : Option String
  interface_compile_definitions : Option (List String)
  interface_compile_options : Option (List String)
  interface_include_directories : Option (List String)
  interface_link_directories : Option (List String)
  interface_link_options : Option (List String)
deriving DecidableEq

/-- Embedding of `struct Target`: the non-recursive fields bundled in a
`TargetBase`, plus the self-referential `interface_link_libraries` list, whose
entries (`enum PropertyValue`) are either plain strings (`Sum.inl`) or nested
targets (`Sum.inr`). -/
inductive Target where
  | mk : TargetBase → Option (List (String ⊕ Target)) → Target

/-- Embedding of `enum PropertyValue`: `Sum.inl` is `PropertyValue::String`,
`Sum.inr` is `PropertyValue::Target`. -/
abbrev PropertyValue := String ⊕ Target

/-- Projection to the non-recursive fields of a `Target`. -/
def Target.base : Target → TargetBase
  | .mk b _ => b

/-- Projection to the `interface_link_libraries` field of a `Target`. -/
def Target.links : Target → Option (List PropertyValue)
  | .mk _ l => l

/-- Default `TargetBase` with every optional field absent (the serde
`#[serde(default)]` shape). -/
def TargetBase.default : TargetBase :=
  { name := "", location := none, location_release := none, location_debug := none,
    location_relwithdebinfo := none, location_minsizerel := none,
    imported_implib := none, imported_implib_release := none, imported_implib_debug := none,
    imported_implib_relwithdebinfo := none, imported_implib_minsizerel := none,
    interface_compile_definitions := none, interface_compile_options := none,
    interface_include_directories := none, interface_link_directories := none,
    interface_link_options := none }

/-! ## `src/cmake.rs`: the property resolution engine -/

mutual
/-- Embedding of `collect_from_targets`: the target's own value for the
selected property first, then, in order, the recursively collected values of
every nested `Target` in `interface_link_libraries` (string entries are
skipped). -/
def collectFromTargets (prop : TargetBase → Option (List String)) : Target → List String
  | .mk b none => (prop b).getD []
  | .mk b (some links) => (prop b).getD [] ++ collectFromList prop links

/-- Companion of `collectFromTargets` walking the `interface_link_libraries`
list (the `filter_map` + `flat_map` part of the source). -/
def collectFromList (prop : TargetBase → Option (List String)) : List PropertyValue → List String
  | [] => []
  | .inl _ :: rest => collectFromList prop rest
  | .inr t :: rest => collectFromTargets prop t ++ collectFromList prop rest
end

/-- Lexicographic order on character lists (embedding of `Ord for String` in
Rust: byte-lexicographic order on UTF-8 data coincides with code-point
lexicographic order). -/
def charListLe : List Char → List Char → Bool
  | [], _ => true
  | _ :: _, [] => false
  | a :: as, b :: bs => decide (a < b) || (a == b && charListLe as bs)

/-- Lexicographic order on strings, as compared by Rust's `Ord for String`. -/
def strLe (a b : String) : Bool := charListLe a.data b.data

/-- Insertion of a string into a sorted list (with respect to `strLe`). -/
def insertSorted (s : String) : List String → List String
  | [] => [s]
  | x :: xs => if strLe s x then s :: x :: xs else x :: insertSorted s xs

/-- Embedding of itertools `.sorted()` on `Vec<String>`: the sorted permutation
of the input (insertion sort; for a total order on strings the sorted
permutation is unique as a list). -/
def sortedStrings : List String → List String
  | [] => []
  | x :: xs => insertSorted x (sortedStrings xs)

/-- Embedding of itertools `.dedup()`: collapse runs of consecutive equal
elements to their first element. -/
def dedupConsec : List String → List String
  | [] => []
  | [x] => [x]
  | x :: y :: rest =>
    if x = y then dedupConsec (y :: rest) else x :: dedupConsec (y :: rest)

/-- Embedding of `collect_from_targets_unique`: `collect_from_targets`, then
`.sorted().dedup()`. -/
def collectFromTargetsUnique (prop : TargetBase → Option (List String)) (t : Target) : List String :=
  dedupConsec (sortedStrings (collectFromTargets prop t))

/-- Embedding of `location_for_build_type`: on Windows the `imported_implib`
field family, otherwise the `location` field family; the configuration
override first, with `.or` falling back to the unconfigured base field. -/
def location_for_build_type (windows : Bool) (bt : CMakeBuildType) (t : Target) : Option String :=
  if windows then
    match bt with
    | .Debug => t.base.imported_implib_debug.or t.base.imported_implib
    | .Release => t.base.imported_implib_release.or t.base.imported_implib
    | .RelWithDebInfo => t.base.imported_implib_relwithdebinfo.or t.base.imported_implib
    | .MinSizeRel => t.base.imported_implib_minsizerel.or t.base.imported_implib
  else
    match bt with
    | .Debug => t.base.location_debug.or t.base.location
    | .Release => t.base.location_release.or t.base.location
    | .RelWithDebInfo => t.base.location_relwithdebinfo.or t.base.location
    | .MinSizeRel => t.base.location_minsizerel.or t.base.location

mutual
/-- Embedding of `From<PropertyValue> for Vec<String>`: a string entry
contributes itself; a nested target contributes via `targetLinkStrings`. -/
def pvToStrings : PropertyValue → List String
  | .inl s => [s]
  | .inr t => targetLinkStrings t

/-- Embedding of the `PropertyValue::Target` arm of
`From<PropertyValue> for Vec<String>`: the target's unconfigured base
`location` field (if present) followed by the flattening of its own
`interface_link_libraries`. -/
def targetLinkStrings : Target → List String
  | .mk b none => (b.location.map (fun l => [l])).getD []
  | .mk b (some links) => (b.location.map (fun l => [l])).getD [] ++ pvListToStrings links

/-- Flattening of a whole `interface_link_libraries` list via `pvToStrings`. -/
def pvListToStrings : List PropertyValue → List String
  | [] => []
  | pv :: rest => pvToStrings pv ++ pvListToStrings rest
end

/-- Embedding of `struct CMakeTarget` (the resolved target). -/
structure CMakeTarget where
  name : String
  location : Option String
  compile_definitions : List String
  compile_options : List String
  include_directories : List String
  link_directories : List String
  link_libraries : List String
  link_options : List String
deriving DecidableEq

/-- Embedding of `Target::into_cmake_target`. -/
def Target.into_cmake_target (windows : Bool) (t : Target) (bt : CMakeBuildType) : CMakeTarget :=
  { compile_definitions :=
      collectFromTargetsUnique (fun target => target.interface_compile_definitions) t
    compile_options := collectFromTargets (fun target => target.interface_compile_options) t
    include_directories :=
      collectFromTargetsUnique (fun target => target.interface_include_directories) t
    link_directories :=
      collectFromTargetsUnique (fun target => target.interface_link_directories) t
    link_options := collectFromTargets (fun target => target.interface_link_options) t
    link_libraries :=
      dedupConsec (sortedStrings
        (((location_for_build_type windows bt t).map (fun l => [l])).getD []
          ++ pvListToStrings (t.links.getD [])))
    location := location_for_build_type windows bt t
    name := t.base.name }

/-! ## Supporting definitions written from the specification's words -/

/-- Direct dependencies of a target: the nested `Target` entries of its
`interface_link_libraries`, in declared order. -/
def directDeps (t : Target) : List Target :=
  (t.links.getD []).filterMap (fun pv =>
    match pv with
    | .inl _ => none
    | .inr dep => some dep)

/-- Tuple-lexicographic strict order on versions, written from the
specification: exact lexicographic order on `(major, minor, patch)`. -/
def specVersionLexLt (a b : Version) : Prop :=
  a.major < b.major
    ∨ (a.major = b.major ∧ (a.minor < b.minor
        ∨ (a.minor = b.minor ∧ a.patch < b.patch)))

/-- Configuration-specific override field of the location family selected by
the platform, written from the specification's override rule. -/
def specOverrideField (windows : Bool) (bt : CMakeBuildType) (t : Target) : Option String :=
  if windows then
    match bt with
    | .Debug => t.base.imported_implib_debug
    | .Release => t.base.imported_implib_release
    | .RelWithDebInfo => t.base.imported_implib_relwithdebinfo
    | .MinSizeRel => t.base.imported_implib_minsizerel
  else
    match bt with
    | .Debug => t.base.location_debug
    | .Release => t.base.location_release
    | .RelWithDebInfo => t.base.location_relwithdebinfo
    | .MinSizeRel => t.base.location_minsizerel

/-- Unconfigured base field of the location family selected by the platform,
written from the specification's override rule. -/
def specBaseField (windows : Bool) (t : Target) : Option String :=
  if windows then t.base.imported_implib else t.base.location

mutual
/-- Link-library contribution of one `interface_link_libraries` entry as
claim C1 states it: a nested `Target` contributes its resolved location for
the same `BuildConfiguration` (override rule), followed by the flattening of
its own `interface_link_libraries`. -/
def claimPvFlatten (windows : Bool) (bt : CMakeBuildType) : PropertyValue → List String
  | .inl s => [s]
  | .inr t => claimTargetFlatten windows bt t

/-- Nested-target arm of `claimPvFlatten`: the resolved location of the
target for the same configuration (override rule), then its own entries. -/
def claimTargetFlatten (windows : Bool) (bt : CMakeBuildType) : Target → List String
  | .mk b none =>
    ((location_for_build_type windows bt (.mk b none)).map (fun l => [l])).getD []
  | .mk b (some links) =>
    ((location_for_build_type windows bt (.mk b (some links))).map (fun l => [l])).getD []
      ++ claimPvFlattenList windows bt links

/-- List version of `claimPvFlatten`. -/
def claimPvFlattenList (windows : Bool) (bt : CMakeBuildType) : List PropertyValue → List String
  | [] => []
  | pv :: rest => claimPvFlatten windows bt pv ++ claimPvFlattenList windows bt rest
end

/-- Resolved link-library list as claim C1 states it: resolved root location
first if present, then the flattening of every entry (nested targets using the
override rule), then sort and deduplicate. -/
def claimLinkLibraries (windows : Bool) (bt : CMakeBuildType) (t : Target) : List String :=
  dedupConsec (sortedStrings
    (((location_for_build_type windows bt t).map (fun l => [l])).getD []
      ++ claimPvFlattenList windows bt (t.links.getD [])))

/-- Sortedness with respect to the string order used by the engine. -/
abbrev StrSorted (l : List String) : Prop := l.Sorted (fun a b => strLe a b = true)

/-! ## Concrete example targets used by the specification's test properties -/

/-- Dependency target of the specification's order-sensitivity example
(`interface_compile_options = ["-O3"]`). -/
def exOptDep : Target :=
  .mk { TargetBase.default with name := "D", interface_compile_options := some ["-O3"] } none

/-- Root target of the specification's order-sensitivity example
(`interface_compile_options = ["-O2", "-Wall"]`, linking `exOptDep`). -/
def exOptRoot : Target :=
  .mk { TargetBase.default with name := "R", interface_compile_options := some ["-O2", "-Wall"] }
    (some [.inr exOptDep])

/-- A root/dependency pair carrying duplicated compile options, showing that
the order-sensitive collection keeps duplicates. -/
def exDupRoot : Target :=
  .mk { TargetBase.default with name := "R", interface_compile_options := some ["-dup", "-dup"] }
    (some [.inr (.mk { TargetBase.default with
      name := "D", interface_compile_options := some ["-dup"] } none)])

/-- Root target of the specification's order-insensitivity example
(`interface_include_directories = ["/a"]`, linking a dependency with
`["/a", "/b"]`). -/
def exInclRoot : Target :=
  .mk { TargetBase.default with name := "R", interface_include_directories := some ["/a"] }
    (some [.inr (.mk { TargetBase.default with
      name := "D", interface_include_directories := some ["/a", "/b"] } none)])

/-- Target of the specification's location-override example
(`location = "/x"`, `location_debug = "/x/dbg"`). -/
def exLocT : Target :=
  .mk { TargetBase.default with
        name := "T", location := some "/x", location_debug := some "/x/dbg" } none

/-- Root target of the specification's link-library composition example: own
location, one string dependency, one nested target with its own location and
a further string dependency. -/
def exLinkRoot : Target :=
  .mk { TargetBase.default with name := "R", location := some "/usr/lib/root.so" }
    (some [.inl "libfoo",
      .inr (.mk { TargetBase.default with name := "D", location := some "/usr/lib/dep.so" }
        (some [.inl "libbar"]))])

/-- Counterexample input for claim C1: the root has no location of its own and
links one nested target whose location is given only by the configuration
override `location_debug = "/d"` (no base `location`). -/
def c1CexRoot : Target :=
  .mk { TargetBase.default with name := "root" }
    (some [.inr (.mk { TargetBase.default with
      name := "dep", location_debug := some "/d" } none)])

/-! ## Fuel-bounded resolution: termination of the engine -/

mutual
/-- Nesting depth of a target: one more than the depth of its
`interface_link_libraries` list. -/
def depthT : Target → Nat
  | .mk _ none => 1
  | .mk _ (some links) => 1 + depthL links

/-- Nesting depth of an `interface_link_libraries` list: the maximal depth of
its nested targets (string entries contribute nothing). -/
def depthL : List PropertyValue → Nat
  | [] => 0
  | .inl _ :: rest => depthL rest
  | .inr t :: rest => max (depthT t) (depthL rest)
end

mutual
/-- Fuel-bounded version of `collectFromTargets`: consumes one unit of fuel
for each level of target nesting and fails (`none`) when the fuel runs out. -/
def collectFromTargetsFuel (prop : TargetBase → Option (List String)) :
    Nat → Target → Option (List String)
  | 0, _ => none
  | _ + 1, .mk b none => some ((prop b).getD [])
  | fuel + 1, .mk b (some links) =>
    (collectFromListFuel prop fuel links).map (fun r => (prop b).getD [] ++ r)
termination_by fuel _ => (fuel, 0)

/-- Fuel-bounded version of `collectFromList`. -/
def collectFromListFuel (prop : TargetBase → Option (List String)) :
    Nat → List PropertyValue → Option (List String)
  | _, [] => some []
  | fuel, .inl _ :: rest => collectFromListFuel prop fuel rest
  | fuel, .inr t :: rest =>
    (collectFromTargetsFuel prop fuel t).bind (fun r =>
      (collectFromListFuel prop fuel rest).map (fun r' => r ++ r'))
termination_by fuel l => (fuel, l.length + 1)
end

mutual
/-- Fuel-bounded version of `pvToStrings`. -/
def pvToStringsFuel : Nat → PropertyValue → Option (List String)
  | _, .inl s => some [s]
  | fuel, .inr t => targetLinkStringsFuel fuel t
termination_by fuel _ => (fuel, 1)

/-- Fuel-bounded version of `targetLinkStrings`. -/
def targetLinkStringsFuel : Nat → Target → Option (List String)
  | 0, _ => none
  | _ + 1, .mk b none => some ((b.location.map (fun l => [l])).getD [])
  | fuel + 1, .mk b (some links) =>
    (pvListToStringsFuel fuel links).map (fun r =>
      (b.location.map (fun l => [l])).getD [] ++ r)
termination_by fuel _ => (fuel, 0)

/-- Fuel-bounded version of `pvListToStrings`. -/
def pvListToStringsFuel : Nat → List PropertyValue → Option (List String)
  | _, [] => some []
  | fuel, pv :: rest =>
    (pvToStringsFuel fuel pv).bind (fun r =>
      (pvListToStringsFuel fuel rest).map (fun r' => r ++ r'))
termination_by fuel l => (fuel, l.length + 2)
end

/-- Fuel-bounded version of `Target.into_cmake_target`: every recursive
collection is bounded by the fuel. -/
def into_cmake_target_fuel (windows : Bool) (fuel : Nat) (t : Target) (bt : CMakeBuildType) :
    Option CMakeTarget :=
  match fuel with
  | 0 => none
  | fuel + 1 =>
    (collectFromTargetsFuel (fun target => target.interface_compile_definitions) (fuel + 1) t).bind
      (fun cd =>
    (collectFromTargetsFuel (fun target => target.interface_compile_options) (fuel + 1) t).bind
      (fun co =>
    (collectFromTargetsFuel (fun target => target.interface_include_directories) (fuel + 1) t).bind
      (fun incl =>
    (collectFromTargetsFuel (fun target => target.interface_link_directories) (fuel + 1) t).bind
      (fun ld =>
    (collectFromTargetsFuel (fun target => target.interface_link_options) (fuel + 1) t).bind
      (fun lo =>
    (pvListToStringsFuel fuel (t.links.getD [])).map
      (fun ll =>
        { compile_definitions := dedupConsec (sortedStrings cd)
          compile_options := co
          include_directories := dedupConsec (sortedStrings incl)
          link_directories := dedupConsec (sortedStrings ld)
          link_options := lo
          link_libraries :=
            dedupConsec (sortedStrings
              (((location_for_build_type windows bt t).map (fun l => [l])).getD [] ++ ll))
          location := location_for_build_type windows bt t
          name := t.base.name }))))))

/-! ## Sanity checks of the embedding on concrete inputs -/

example : Version.parse "1.2.3" = .ok ⟨1, 2, 3⟩ := rfl
example : Version.parse "1.2" = .ok ⟨1, 2, 0⟩ := rfl
example : Version.parse "1" = .ok ⟨1, 0, 0⟩ := rfl
example : Version.parse "" = .error .invalidVersion := rfl
example : Version.parse "1.2.3.4" = .error .invalidVersion := rfl
example : Version.parse "a.b.c" = .error .invalidVersion := rfl
example : Version.render ⟨1, 2, 0⟩ = "1.2.0" := by decide
example : Version.render ⟨10, 234, 0⟩ = "10.234.0" := by decide

example : build_type none none none = .Debug := by decide
example : build_type (some "release") none none = .Release := by decide
example : build_type (some "release") none (some "1") = .RelWithDebInfo := by decide
example : build_type (some "release") (some "s") (some "0") = .MinSizeRel := by decide
example : build_type (some "release") (some "z") (some "true") = .MinSizeRel := by decide
example : build_type (some "release") (some "3") (some "true") = .RelWithDebInfo := by decide
example : build_type (some "release") (some "") none = .MinSizeRel := by decide
example : build_type (some "release") (some "sz") none = .MinSizeRel := by decide

/-! ## Order lemmas for the string order -/

lemma charListLe_total : ∀ a b : List Char, charListLe a b = true ∨ charListLe b a = true := by
  intro a
  induction a with
  | nil => intro b; left; rfl
  | cons x xs ih =>
    intro b
    cases b with
    | nil => right; rfl
    | cons y ys =>
      simp only [charListLe, Bool.or_eq_true, Bool.and_eq_true, decide_eq_true_eq, beq_iff_eq]
      rcases lt_trichotomy x y with h | h | h
      · left; left; exact h
      · rcases ih ys with h' | h'
        · left; right; exact ⟨h, h'⟩
        · right; right; exact ⟨h.symm, h'⟩
      · right; left; exact h

lemma charListLe_trans : ∀ a b c : List Char,
    charListLe a b = true → charListLe b c = true → charListLe a c = true := by
  intro a
  induction a with
  | nil => intro b c _ _; rfl
  | cons x xs ih =>
    intro b c hab hbc
    cases b with
    | nil => simp [charListLe] at hab
    | cons y ys =>
      cases c with
      | nil => simp [charListLe] at hbc
      | cons z zs =>
        simp only [charListLe, Bool.or_eq_true, Bool.and_eq_true, decide_eq_true_eq,
          beq_iff_eq] at hab hbc ⊢
        rcases hab with h1 | ⟨h1, h1'⟩
        · rcases hbc with h2 | ⟨h2, _⟩
          · left; exact h1.trans h2
          · left; exact h2 ▸ h1
        · rcases hbc with h2 | ⟨h2, h2'⟩
          · left; exact h1 ▸ h2
          · right; exact ⟨h1.trans h2, ih ys zs h1' h2'⟩

lemma charListLe_antisymm : ∀ a b : List Char,
    charListLe a b = true → charListLe b a = true → a = b := by
  intro a
  induction a with
  | nil =>
    intro b _ hba
    cases b with
    | nil => rfl
    | cons y ys => simp [charListLe] at hba
  | cons x xs ih =>
    intro b hab hba
    cases b with
    | nil => simp [charListLe] at hab
    | cons y ys =>
      simp only [charListLe, Bool.or_eq_true, Bool.and_eq_true, decide_eq_true_eq,
        beq_iff_eq] at hab hba
      rcases hab with h1 | ⟨h1, h1'⟩
      · rcases hba with h2 | ⟨h2, _⟩
        · exact absurd (h1.trans h2) (lt_irrefl x)
        · exact absurd h1 (h2 ▸ lt_irrefl y)
      · rcases hba with h2 | ⟨h2, h2'⟩
        · exact absurd h2 (h1 ▸ lt_irrefl x)
        · rw [h1, ih ys h1' h2']

lemma strLe_total (a b : String) : strLe a b = true ∨ strLe b a = true :=
  charListLe_total a.data b.data

lemma strLe_trans {a b c : String} (h1 : strLe a b = true) (h2 : strLe b c = true) :
    strLe a c = true :=
  charListLe_trans a.data b.data c.data h1 h2

lemma strLe_antisymm {a b : String} (h1 : strLe a b = true) (h2 : strLe b a = true) :
    a = b := by
  cases a; cases b
  exact congrArg String.mk (charListLe_antisymm _ _ h1 h2)

lemma strLe_refl (a : String) : strLe a a = true := by
  rcases strLe_total a a with h | h <;> exact h

/-! ## Lemmas about sorting and consecutive deduplication -/

lemma mem_insertSorted (s : String) : ∀ (l : List String) (x : String),
    x ∈ insertSorted s l ↔ x = s ∨ x ∈ l := by
  intro l
  induction l with
  | nil => intro x; simp [insertSorted]
  | cons y ys ih =>
    intro x
    simp only [insertSorted]
    split
    · simp
    · simp only [List.mem_cons, ih x]
      tauto

lemma sorted_insertSorted (s : String) : ∀ {l : List String},
    StrSorted l → StrSorted (insertSorted s l) := by
  intro l
  induction l with
  | nil => intro _; simp [insertSorted, StrSorted]
  | cons y ys ih =>
    intro h
    obtain ⟨hy, hys⟩ := List.sorted_cons.mp h
    simp only [insertSorted]
    split
    · rename_i hsy
      refine List.sorted_cons.mpr ⟨?_, List.sorted_cons.mpr ⟨hy, hys⟩⟩
      intro b hb
      rcases List.mem_cons.mp hb with rfl | hb
      · exact hsy
      · exact strLe_trans hsy (hy b hb)
    · rename_i hsy
      have hys' : strLe y s = true := by
        rcases strLe_total s y with h' | h'
        · exact absurd h' hsy
        · exact h'
      refine List.sorted_cons.mpr ⟨?_, ih hys⟩
      intro b hb
      rcases (mem_insertSorted s ys b).mp hb with rfl | hb
      · exact hys'
      · exact hy b hb

lemma sorted_sortedStrings : ∀ l : List String, StrSorted (sortedStrings l) := by
  intro l
  induction l with
  | nil => simp [sortedStrings, StrSorted]
  | cons x xs ih => exact sorted_insertSorted x ih

lemma mem_sortedStrings : ∀ (l : List String) (x : String),
    x ∈ sortedStrings l ↔ x ∈ l := by
  intro l
  induction l with
  | nil => intro x; simp [sortedStrings]
  | cons y ys ih =>
    intro x
    simp only [sortedStrings, mem_insertSorted, List.mem_cons, ih x]

lemma mem_dedupConsec : ∀ (l : List String) (x : String), x ∈ dedupConsec l ↔ x ∈ l := by
  intro l
  induction l with
  | nil => intro x; simp [dedupConsec]
  | cons y ys ih =>
    intro x
    cases ys with
    | nil => simp [dedupConsec]
    | cons z zs =>
      simp only [dedupConsec]
      split
      · rename_i hyz
        subst hyz
        simp only [ih x, List.mem_cons]
        tauto
      · simp only [List.mem_cons, ih x, List.mem_cons]

lemma sorted_strict_dedupConsec : ∀ l : List String, StrSorted l →
    (dedupConsec l).Sorted (fun a b => strLe a b = true ∧ a ≠ b) := by
  intro l
  induction l with
  | nil => intro _; simp [dedupConsec]
  | cons y ys ih =>
    intro h
    obtain ⟨hy, hys⟩ := List.sorted_cons.mp h
    cases ys with
    | nil => simp [dedupConsec]
    | cons z zs =>
      simp only [dedupConsec]
      split
      · exact ih hys
      · rename_i hyz
        refine List.sorted_cons.mpr ⟨?_, ih hys⟩
        intro b hb
        have hb' : b ∈ z :: zs := (mem_dedupConsec _ b).mp hb
        refine ⟨hy b hb', ?_⟩
        rintro rfl
        rcases List.mem_cons.mp hb' with rfl | hb''
        · exact hyz rfl
        · exact hyz (strLe_antisymm (hy z (List.mem_cons_self z zs))
            ((List.sorted_cons.mp hys).1 y hb''))

lemma sorted_dedupConsec {l : List String} (h : StrSorted l) : StrSorted (dedupConsec l) :=
  (sorted_strict_dedupConsec l h).imp (fun h' => h'.1)

lemma nodup_dedupConsec {l : List String} (h : StrSorted l) : (dedupConsec l).Nodup :=
  (sorted_strict_dedupConsec l h).imp (fun h' => h'.2)

/-- Combined characterization of the `.sorted().dedup()` pipeline: the result
is sorted, duplicate-free, and has exactly the members of the input. -/
lemma sortDedup_spec (l : List String) :
    StrSorted (dedupConsec (sortedStrings l))
      ∧ (dedupConsec (sortedStrings l)).Nodup
      ∧ ∀ x, x ∈ dedupConsec (sortedStrings l) ↔ x ∈ l := by
  refine ⟨sorted_dedupConsec (sorted_sortedStrings l), nodup_dedupConsec (sorted_sortedStrings l), ?_⟩
  intro x
  rw [mem_dedupConsec, mem_sortedStrings]

/-! ## Structure of the recursive property collection -/

lemma collectFromList_eq (prop : TargetBase → Option (List String)) :
    ∀ links : List PropertyValue,
      collectFromList prop links
        = (List.map (collectFromTargets prop) (links.filterMap (fun pv =>
            match pv with
            | .inl _ => none
            | .inr dep => some dep))).flatten := by
  intro links
  induction links with
  | nil => rfl
  | cons pv rest ih =>
    cases pv with
    | inl s => simpa [collectFromList, List.filterMap_cons] using ih
    | inr dep => simp [collectFromList, List.filterMap_cons, ih]

/-- The collector satisfies the recursive description of the specification:
the root target's own list first, then, for each direct dependency in declared
order, that dependency's full collected list. -/
lemma collectFromTargets_eq (prop : TargetBase → Option (List String)) (t : Target) :
    collectFromTargets prop t
      = (prop t.base).getD []
        ++ (List.map (collectFromTargets prop) (directDeps t)).flatten := by
  cases t with
  | mk b links =>
    cases links with
    | none => simp [collectFromTargets, directDeps, Target.links, Target.base]
    | some l =>
      simp only [collectFromTargets, directDeps, Target.links, Target.base, Option.getD_some,
        collectFromList_eq]

/-! ## Claim theorems: resolution engine and selector -/

/-- Claim C4: for the order-sensitive properties `compile_options` and
`link_options` the resolved value is the raw collection result, duplicates and
declared order preserved: the root target's own list first, then, for each
direct dependency in declared order, that dependency's full resolved list
(depth-first pre-order); in particular the specification's example resolves to
`["-O2", "-Wall", "-O3"]`, and duplicates are kept. -/
theorem c4_order_sensitive_resolution :
    (∀ (windows : Bool) (bt : CMakeBuildType) (t : Target),
      (Target.into_cmake_target windows t bt).compile_options
        = (t.base.interface_compile_options).getD []
          ++ (List.map (fun d => (Target.into_cmake_target windows d bt).compile_options)
              (directDeps t)).flatten
      ∧ (Target.into_cmake_target windows t bt).link_options
        = (t.base.interface_link_options).getD []
          ++ (List.map (fun d => (Target.into_cmake_target windows d bt).link_options)
              (directDeps t)).flatten)
    ∧ (Target.into_cmake_target false exOptRoot .Release).compile_options = ["-O2", "-Wall", "-O3"]
    ∧ (Target.into_cmake_target false exDupRoot .Release).compile_options
        = ["-dup", "-dup", "-dup"] := by
  refine ⟨?_, by decide, by decide⟩
  intro windows bt t
  exact ⟨collectFromTargets_eq (fun target => target.interface_compile_options) t,
    collectFromTargets_eq (fun target => target.interface_link_options) t⟩

/-- Claim C5: for the order-insensitive properties `compile_definitions`,
`include_directories` and `link_directories` the resolved value is the
transitive collection result sorted into lexicographic string order and
deduplicated; in particular the specification's example resolves to
`["/a", "/b"]` with the duplicate `"/a"` collapsed. -/
theorem c5_order_insensitive_resolution :
    (∀ (windows : Bool) (bt : CMakeBuildType) (t : Target),
      (StrSorted (Target.into_cmake_target windows t bt).compile_definitions
        ∧ (Target.into_cmake_target windows t bt).compile_definitions.Nodup
        ∧ ∀ x, x ∈ (Target.into_cmake_target windows t bt).compile_definitions
            ↔ x ∈ collectFromTargets (fun b => b.interface_compile_definitions) t)
      ∧ (StrSorted (Target.into_cmake_target windows t bt).include_directories
        ∧ (Target.into_cmake_target windows t bt).include_directories.Nodup
        ∧ ∀ x, x ∈ (Target.into_cmake_target windows t bt).include_directories
            ↔ x ∈ collectFromTargets (fun b => b.interface_include_directories) t)
      ∧ (StrSorted (Target.into_cmake_target windows t bt).link_directories
        ∧ (Target.into_cmake_target windows t bt).link_directories.Nodup
        ∧ ∀ x, x ∈ (Target.into_cmake_target windows t bt).link_directories
            ↔ x ∈ collectFromTargets (fun b => b.interface_link_directories) t))
    ∧ (Target.into_cmake_target false exInclRoot .Release).include_directories
        = ["/a", "/b"] := by
  refine ⟨?_, by decide⟩
  intro windows bt t
  exact ⟨sortDedup_spec _, sortDedup_spec _, sortDedup_spec _⟩

/-- Claim C6: location resolution is total and yields the configuration
override when present, else the base field, else `none`; on Windows the
`imported_implib` family replaces the `location` family throughout; the
specification's example resolves to `/x/dbg` under Debug and `/x` under
Release. -/
theorem c6_location_resolution :
    (∀ (windows : Bool) (bt : CMakeBuildType) (t : Target),
      location_for_build_type windows bt t
        = (specOverrideField windows bt t).or (specBaseField windows t))
    ∧ location_for_build_type false .Debug exLocT = some "/x/dbg"
    ∧ location_for_build_type false .Release exLocT = some "/x" := by
  refine ⟨?_, by decide, by decide⟩
  intro windows bt t
  cases windows <;> cases bt <;> rfl

/-- Claim C1, counterexample: the claimed link-library list (nested targets
contributing their location resolved with the override rule for the requested
configuration) differs from what the code computes on a root whose dependency
has only a `location_debug` override: the code yields `[]`, the claim
predicts `["/d"]`. -/
theorem c1_link_libraries_counterexample :
    (Target.into_cmake_target false c1CexRoot .Debug).link_libraries
      ≠ claimLinkLibraries false .Debug c1CexRoot := by decide

/-- Claim C1 as amended: the resolved `link_libraries` list is the
sort-and-deduplication of: the root's location resolved with the override rule
for the requested configuration (if present), followed by the flattening of
`interface_link_libraries`, where a string entry contributes itself and a
nested `Target` entry contributes its unconfigured base `location` field
(ignoring per-configuration overrides and the implib family) followed by the
flattening of its own entries, recursively. -/
theorem c1_link_libraries_amended :
    (∀ (windows : Bool) (bt : CMakeBuildType) (t : Target),
      StrSorted (Target.into_cmake_target windows t bt).link_libraries
      ∧ (Target.into_cmake_target windows t bt).link_libraries.Nodup
      ∧ ∀ x, x ∈ (Target.into_cmake_target windows t bt).link_libraries
          ↔ x ∈ ((location_for_build_type windows bt t).map (fun l => [l])).getD []
              ++ pvListToStrings (t.links.getD []))
    ∧ (Target.into_cmake_target false exLinkRoot .Release).link_libraries
        = ["/usr/lib/dep.so", "/usr/lib/root.so", "libbar", "libfoo"] := by
  refine ⟨?_, by decide⟩
  intro windows bt t
  exact sortDedup_spec _

/-- Claim C2, failing input: the hand-written `ge` compares component-wise, so
`(1,0,0) > (0,1,0)` holds (lexicographically) while `(1,0,0) >= (0,1,0)` is
false, contradicting "`a >= b` iff `a > b` or `a == b`". -/
theorem c2_ge_inconsistent_with_lexicographic_order :
    Version.gt ⟨1, 0, 0⟩ ⟨0, 1, 0⟩ = true ∧ Version.ge ⟨1, 0, 0⟩ ⟨0, 1, 0⟩ = false := by
  decide

/-- Claim C3, failing input: `"sz".contains(&opt_level)` is a substring test,
so with a release profile the empty optimization level (and the level `"sz"`)
select `MinSizeRel`, although neither is the level `"s"` or `"z"`; the claim
(and the comment in the source) say `Release` for these. -/
theorem c3_size_opt_substring_bug :
    build_type (some "release") (some "") none = .MinSizeRel
    ∧ build_type (some "release") (some "sz") none = .MinSizeRel := by
  decide

/-- Claim C8: `partial_cmp` always returns `Some`; it returns `Equal` exactly
when all three fields are equal, `Less` exactly when the `(major, minor,
patch)` tuple of `a` is lexicographically smaller than that of `b`, and
`Greater` otherwise. -/
theorem c8_compare_consistent_with_tuple_order :
    ∀ a b : Version,
      (Version.lt a b = true ↔ specVersionLexLt a b)
      ∧ (Version.compare a b).isSome = true
      ∧ (Version.compare a b = some .eq ↔ a = b)
      ∧ (Version.compare a b = some .lt ↔ specVersionLexLt a b)
      ∧ (Version.compare a b = some .gt ↔ (¬ a = b ∧ ¬ specVersionLexLt a b)) := by
  intro a b
  obtain ⟨a1, a2, a3⟩ := a
  obtain ⟨b1, b2, b3⟩ := b
  have hbeq : Version.beq ⟨a1, a2, a3⟩ ⟨b1, b2, b3⟩ = true ↔ (a1 = b1 ∧ a2 = b2 ∧ a3 = b3) := by
    simp [Version.beq]
    tauto
  have hlt : Version.lt ⟨a1, a2, a3⟩ ⟨b1, b2, b3⟩ = true
      ↔ (a1 < b1 ∨ (a1 = b1 ∧ a2 < b2) ∨ (a1 = b1 ∧ a2 = b2 ∧ a3 < b3)) := by
    simp [Version.lt]
    tauto
  refine ⟨by rw [hlt]; simp only [specVersionLexLt]; tauto, ?_⟩
  unfold Version.compare
  split_ifs with h1 h2
  · obtain ⟨e1, e2, e3⟩ := hbeq.mp h1
    subst e1; subst e2; subst e3
    refine ⟨rfl, by simp, ?_, ?_⟩
    · simp only [specVersionLexLt]
      constructor
      · intro h; exact absurd h (by simp)
      · intro h; omega
    · simp [specVersionLexLt, Version.mk.injEq]
  · have hl := hlt.mp h2
    have hne : ¬ (a1 = b1 ∧ a2 = b2 ∧ a3 = b3) := fun h => h1 (hbeq.mpr h)
    refine ⟨rfl, ?_, ?_, ?_⟩
    · simp only [Version.mk.injEq]
      constructor
      · intro h; exact absurd h (by simp)
      · intro h; omega
    · simp only [specVersionLexLt]
      constructor
      · intro _; omega
      · intro _; trivial
    · simp only [specVersionLexLt, Version.mk.injEq]
      constructor
      · intro h; exact absurd h (by simp)
      · intro h; omega
  · have hne : ¬ (a1 = b1 ∧ a2 = b2 ∧ a3 = b3) := fun h => h1 (hbeq.mpr h)
    have hnl : ¬ (a1 < b1 ∨ (a1 = b1 ∧ a2 < b2) ∨ (a1 = b1 ∧ a2 = b2 ∧ a3 < b3)) :=
      fun h => h2 (hlt.mpr h)
    refine ⟨rfl, ?_, ?_, ?_⟩
    · simp only [Version.mk.injEq]
      constructor
      · intro h; exact absurd h (by simp)
      · intro h; omega
    · simp only [specVersionLexLt]
      constructor
      · intro h; exact absurd h (by simp)
      · intro h; omega
    · simp only [specVersionLexLt, Version.mk.injEq]
      constructor
      · intro _; constructor
        · intro h; omega
        · intro h; omega
      · intro _; trivial

/-- Claim C9: the specification's parse examples, and the exact failure
condition: `Version::parse` fails with `InvalidVersion` exactly when the split
yields zero or more than three components or some component fails `u32`
parsing (the zero-components case is vacuous: splitting always yields at
least one fragment). -/
theorem c9_parse_error_characterization :
    Version.parse "1.2.3" = .ok ⟨1, 2, 3⟩
    ∧ Version.parse "1.2" = .ok ⟨1, 2, 0⟩
    ∧ Version.parse "1" = .ok ⟨1, 0, 0⟩
    ∧ Version.parse "" = .error .invalidVersion
    ∧ Version.parse "1.2.3.4" = .error .invalidVersion
    ∧ Version.parse "a.b.c" = .error .invalidVersion
    ∧ ∀ s : String, Version.parse s = .error .invalidVersion
        ↔ ((splitOnDot s.data).length = 0 ∨ 3 < (splitOnDot s.data).length
            ∨ ∃ p ∈ splitOnDot s.data, parseU32Chars p = none) := by
  refine ⟨rfl, rfl, rfl, rfl, rfl, rfl, ?_⟩
  intro s
  unfold Version.parse
  rcases h : splitOnDot s.data with _ | ⟨a, _ | ⟨b, _ | ⟨c, _ | ⟨d, rest⟩⟩⟩⟩
  · simp
  · rcases h2 : parseU32Chars a with _ | va <;> simp [h2]
  · rcases h2 : parseU32Chars a with _ | va <;> rcases h3 : parseU32Chars b with _ | vb <;>
      simp [h2, h3]
  · rcases h2 : parseU32Chars a with _ | va <;> rcases h3 : parseU32Chars b with _ | vb <;>
      rcases h4 : parseU32Chars c with _ | vc <;> simp [h2, h3, h4]
  · simp

/-! ## Decimal rendering round-trip -/

lemma charDigit?_digitChar {d : Nat} (h : d < 10) : charDigit? (Nat.digitChar d) = some d := by
  interval_cases d <;> decide

lemma digitChar_bounds {d : Nat} (h : d < 10) :
    '0' ≤ Nat.digitChar d ∧ Nat.digitChar d ≤ '9' := by
  interval_cases d <;> exact ⟨by decide, by decide⟩

lemma natDigitsFuel_all_digits : ∀ fuel n, n < fuel →
    ∀ c ∈ natDigitsFuel fuel n, '0' ≤ c ∧ c ≤ '9' := by
  intro fuel
  induction fuel with
  | zero => intro n h; exact absurd h (Nat.not_lt_zero n)
  | succ fuel ih =>
    intro n h c hc
    simp only [natDigitsFuel] at hc
    split at hc
    · rename_i h10
      rw [List.mem_singleton] at hc
      subst hc
      exact digitChar_bounds h10
    · rename_i h10
      rw [List.mem_append] at hc
      rcases hc with hc | hc
      · exact ih (n / 10) (by omega) c hc
      · rw [List.mem_singleton] at hc
        subst hc
        exact digitChar_bounds (Nat.mod_lt _ (by omega))

lemma natDigitsFuel_ne_nil : ∀ fuel n, n < fuel → natDigitsFuel fuel n ≠ [] := by
  intro fuel
  induction fuel with
  | zero => intro n h; exact absurd h (Nat.not_lt_zero n)
  | succ fuel _ =>
    intro n _
    simp only [natDigitsFuel]
    split
    · simp
    · simp

lemma parseDigitsAux_append (l1 l2 : List Char) : ∀ acc,
    parseDigitsAux acc (l1 ++ l2)
      = match parseDigitsAux acc l1 with
        | some a => parseDigitsAux a l2
        | none => none := by
  induction l1 with
  | nil => intro acc; rfl
  | cons c cs ih =>
    intro acc
    simp only [List.cons_append, parseDigitsAux]
    rcases h : charDigit? c with _ | d
    · rfl
    · exact ih _

lemma parseDigitsAux_natDigitsFuel : ∀ fuel n acc, n < fuel →
    parseDigitsAux acc (natDigitsFuel fuel n)
      = some (acc * 10 ^ (natDigitsFuel fuel n).length + n) := by
  intro fuel
  induction fuel with
  | zero => intro n acc h; exact absurd h (Nat.not_lt_zero n)
  | succ fuel ih =>
    intro n acc h
    by_cases h10 : n < 10
    · simp [natDigitsFuel, if_pos h10, parseDigitsAux, charDigit?_digitChar h10]
    · simp only [natDigitsFuel, if_neg h10]
      rw [parseDigitsAux_append]
      rw [ih (n / 10) acc (by omega)]
      have hm : n % 10 < 10 := Nat.mod_lt _ (by omega)
      simp only [parseDigitsAux, charDigit?_digitChar hm, List.length_append,
        List.length_singleton, Option.some.injEq]
      rw [pow_succ, ← mul_assoc]
      generalize acc * 10 ^ (natDigitsFuel fuel (n / 10)).length = A
      omega

lemma parseU32Chars_natToDigits {n : Nat} (h : n < 4294967296) :
    parseU32Chars (natToDigits n) = some n := by
  have hlt : n < n + 1 := Nat.lt_succ_self n
  obtain ⟨c, cs, hcons⟩ : ∃ c cs, natDigitsFuel (n + 1) n = c :: cs := by
    cases hh : natDigitsFuel (n + 1) n with
    | nil => exact absurd hh (natDigitsFuel_ne_nil _ _ hlt)
    | cons c cs => exact ⟨c, cs, rfl⟩
  have hc : '0' ≤ c ∧ c ≤ '9' :=
    natDigitsFuel_all_digits _ _ hlt c (hcons ▸ List.mem_cons_self c cs)
  have hplus : ¬ c = '+' := by
    intro e
    subst e
    exact absurd hc.1 (by decide)
  unfold parseU32Chars natToDigits
  rw [hcons]
  simp only [if_neg hplus, List.isEmpty_cons, Bool.false_eq_true, if_false]
  rw [← hcons, parseDigitsAux_natDigitsFuel _ _ _ hlt]
  simp [if_pos h]

lemma natToDigits_all_digits (n : Nat) : ∀ c ∈ natToDigits n, '0' ≤ c ∧ c ≤ '9' :=
  natDigitsFuel_all_digits (n + 1) n (Nat.lt_succ_self n)

lemma natToDigits_ne_dot (n : Nat) : ∀ c ∈ natToDigits n, c ≠ '.' := by
  intro c hc e
  subst e
  exact absurd (natToDigits_all_digits n _ hc).1 (by decide)

/-! ## Splitting lemmas -/

lemma splitOnDot_no_dot : ∀ l : List Char, (∀ c ∈ l, c ≠ '.') → splitOnDot l = [l] := by
  intro l
  induction l with
  | nil => intro _; rfl
  | cons c cs ih =>
    intro h
    have hc : c ≠ '.' := h c (List.mem_cons_self _ _)
    simp only [splitOnDot, if_neg hc, ih (fun x hx => h x (List.mem_cons_of_mem _ hx))]

lemma splitOnDot_append (a r : List Char) (h : ∀ c ∈ a, c ≠ '.') :
    splitOnDot (a ++ '.' :: r) = a :: splitOnDot r := by
  induction a with
  | nil => simp [splitOnDot]
  | cons c cs ih =>
    have hc : c ≠ '.' := h c (List.mem_cons_self _ _)
    have ih' := ih (fun x hx => h x (List.mem_cons_of_mem _ hx))
    simp only [List.cons_append, splitOnDot, if_neg hc]
    rw [List.append_eq, ih']

/-- Claim C10: rendering always produces exactly three dot-separated numeric
components, and parsing the rendering returns the original version (the `u32`
fields of a Rust `Version` are below `2^32`, which is the hypothesis); the
specification's `"1.2"` example is included. -/
theorem c10_render_roundtrip (v : Version)
    (h1 : v.major < 4294967296) (h2 : v.minor < 4294967296) (h3 : v.patch < 4294967296) :
    splitOnDot (Version.render v).data
      = [natToDigits v.major, natToDigits v.minor, natToDigits v.patch]
    ∧ (splitOnDot (Version.render v).data).length = 3
    ∧ (∀ p ∈ splitOnDot (Version.render v).data, ∃ n, parseU32Chars p = some n)
    ∧ Version.parse (Version.render v) = .ok v
    ∧ Version.parse "1.2" = .ok ⟨1, 2, 0⟩
    ∧ Version.render ⟨1, 2, 0⟩ = "1.2.0" := by
  have hdata : (Version.render v).data
      = natToDigits v.major ++ '.' :: (natToDigits v.minor ++ '.' :: natToDigits v.patch) := rfl
  have hsplit : splitOnDot (Version.render v).data
      = [natToDigits v.major, natToDigits v.minor, natToDigits v.patch] := by
    rw [hdata, splitOnDot_append _ _ (natToDigits_ne_dot v.major),
      splitOnDot_append _ _ (natToDigits_ne_dot v.minor),
      splitOnDot_no_dot _ (natToDigits_ne_dot v.patch)]
  refine ⟨hsplit, by rw [hsplit]; rfl, ?_, ?_, rfl, by decide⟩
  · intro p hp
    rw [hsplit] at hp
    simp only [List.mem_cons, List.not_mem_nil, or_false] at hp
    rcases hp with rfl | rfl | rfl
    · exact ⟨v.major, parseU32Chars_natToDigits h1⟩
    · exact ⟨v.minor, parseU32Chars_natToDigits h2⟩
    · exact ⟨v.patch, parseU32Chars_natToDigits h3⟩
  · unfold Version.parse
    rw [hsplit]
    simp only [parseU32Chars_natToDigits h1, parseU32Chars_natToDigits h2,
      parseU32Chars_natToDigits h3]

/-- Witness for claim C10 at the concrete version `1.2.3`. -/
theorem c10_render_roundtrip_witness :
    (1 : Nat) < 4294967296 ∧ (2 : Nat) < 4294967296 ∧ (3 : Nat) < 4294967296
    ∧ Version.parse (Version.render ⟨1, 2, 3⟩) = .ok ⟨1, 2, 3⟩ :=
  ⟨by decide, by decide, by decide,
    (c10_render_roundtrip ⟨1, 2, 3⟩ (by decide) (by decide) (by decide)).2.2.2.1⟩

lemma depthT_pos : ∀ t : Target, 1 ≤ depthT t := by
  intro t
  cases t with
  | mk b links =>
    cases links with
    | none => simp [depthT]
    | some l => simp [depthT]

lemma collectFuel_correct (prop : TargetBase → Option (List String)) : ∀ fuel : Nat,
    (∀ t, depthT t ≤ fuel →
      collectFromTargetsFuel prop fuel t = some (collectFromTargets prop t))
    ∧ (∀ l, depthL l ≤ fuel →
      collectFromListFuel prop fuel l = some (collectFromList prop l)) := by
  intro fuel
  induction fuel with
  | zero =>
    constructor
    · intro t ht
      have := depthT_pos t
      omega
    · intro l
      induction l with
      | nil => intro _; simp [collectFromListFuel, collectFromList]
      | cons pv rest ihl =>
        intro h
        cases pv with
        | inl s =>
          simp only [depthL] at h
          simp only [collectFromListFuel, collectFromList]
          exact ihl h
        | inr t =>
          simp only [depthL] at h
          have := depthT_pos t
          omega
  | succ fuel ih =>
    have hT : ∀ t, depthT t ≤ fuel + 1 →
        collectFromTargetsFuel prop (fuel + 1) t = some (collectFromTargets prop t) := by
      intro t ht
      cases t with
      | mk b links =>
        cases links with
        | none => simp [collectFromTargetsFuel, collectFromTargets]
        | some l =>
          simp only [depthT] at ht
          simp only [collectFromTargetsFuel, collectFromTargets]
          rw [ih.2 l (by omega)]
          rfl
    refine ⟨hT, ?_⟩
    intro l
    induction l with
    | nil => intro _; simp [collectFromListFuel, collectFromList]
    | cons pv rest ihl =>
      intro h
      cases pv with
      | inl s =>
        simp only [depthL] at h
        simp only [collectFromListFuel, collectFromList]
        exact ihl h
      | inr t =>
        simp only [depthL, max_le_iff] at h
        simp only [collectFromListFuel, collectFromList]
        rw [hT t h.1, ihl h.2]
        rfl

lemma pvFuel_correct : ∀ fuel : Nat,
    (∀ t, depthT t ≤ fuel → targetLinkStringsFuel fuel t = some (targetLinkStrings t))
    ∧ (∀ l, depthL l ≤ fuel → pvListToStringsFuel fuel l = some (pvListToStrings l)) := by
  intro fuel
  induction fuel with
  | zero =>
    constructor
    · intro t ht
      have := depthT_pos t
      omega
    · intro l
      induction l with
      | nil => intro _; simp [pvListToStringsFuel, pvListToStrings]
      | cons pv rest ihl =>
        intro h
        cases pv with
        | inl s =>
          simp only [depthL] at h
          simp only [pvListToStringsFuel, pvToStringsFuel, pvListToStrings, pvToStrings]
          rw [ihl h]
          rfl
        | inr t =>
          simp only [depthL] at h
          have := depthT_pos t
          omega
  | succ fuel ih =>
    have hT : ∀ t, depthT t ≤ fuel + 1 →
        targetLinkStringsFuel (fuel + 1) t = some (targetLinkStrings t) := by
      intro t ht
      cases t with
      | mk b links =>
        cases links with
        | none => simp [targetLinkStringsFuel, targetLinkStrings]
        | some l =>
          simp only [depthT] at ht
          simp only [targetLinkStringsFuel, targetLinkStrings]
          rw [ih.2 l (by omega)]
          rfl
    refine ⟨hT, ?_⟩
    intro l
    induction l with
    | nil => intro _; simp [pvListToStringsFuel, pvListToStrings]
    | cons pv rest ihl =>
      intro h
      cases pv with
      | inl s =>
        simp only [depthL] at h
        simp only [pvListToStringsFuel, pvToStringsFuel, pvListToStrings, pvToStrings]
        rw [ihl h]
        rfl
      | inr t =>
        simp only [depthL, max_le_iff] at h
        simp only [pvListToStringsFuel, pvToStringsFuel, pvListToStrings, pvToStrings]
        rw [hT t h.1, ihl h.2]
        rfl

/-- Claim C7: the resolution engine is total on every constructible target
graph: the recursion is bounded by the structural nesting depth of the target
(a target owns its nested dependencies), so the fuel-bounded engine, which
fails when a recursion budget is exhausted, succeeds with exactly the
unbounded engine's result whenever the fuel is at least the nesting depth —
resolution terminates and never fails. -/
theorem c7_resolution_total (windows : Bool) (bt : CMakeBuildType) :
    ∀ (fuel : Nat) (t : Target), depthT t ≤ fuel →
      into_cmake_target_fuel windows fuel t bt
        = some (Target.into_cmake_target windows t bt) := by
  intro fuel t h
  cases fuel with
  | zero =>
    have := depthT_pos t
    omega
  | succ fuel =>
    have hll : depthL (t.links.getD []) ≤ fuel := by
      cases t with
      | mk b links =>
        cases links with
        | none => simp [Target.links, depthL]
        | some l =>
          simp only [Target.links, Option.getD_some]
          simp only [depthT] at h
          omega
    simp only [into_cmake_target_fuel]
    rw [(collectFuel_correct _ _).1 t h, (collectFuel_correct _ _).1 t h,
      (collectFuel_correct _ _).1 t h, (collectFuel_correct _ _).1 t h,
      (collectFuel_correct _ _).1 t h, (pvFuel_correct _).2 _ hll]
    rfl

/-- Witness for claim C7 at the concrete link-library example target, whose
nesting depth is 2. -/
theorem c7_resolution_total_witness :
    depthT exLinkRoot ≤ 2
    ∧ into_cmake_target_fuel false 2 exLinkRoot .Release
        = some (Target.into_cmake_target false exLinkRoot .Release) :=
  ⟨by decide, c7_resolution_total false .Release 2 exLinkRoot (by decide)⟩
